import Mathlib

/-!
Verification of the agentic IDE backend's project edit engine, tool event
log, sandbox helpers and run orchestration, as shallowly embedded from the
Python sources (src/backend/src/agent/tools.py, src/backend/src/agent/agent.py,
src/backend/src/api/agent.py, src/backend/src/api/sandbox.py, src/backend/src/sse.py).
-/

namespace IDEAgent

/-- Python strings are modelled as lists of characters. -/
abbrev PyStr := List Char

/-- Embed a Lean string literal as a model string. -/
def pstr (s : String) : PyStr := s.data

/-- Python `s.split(sep)` for a separator `sep`, greedy left-to-right and
non-overlapping, as used implicitly by `str.replace`.  `pySplit [] s` is
never used by the embedding (Python raises on an empty separator); it is
given the harmless value that keeps the function total. -/
def pySplit (find : PyStr) : PyStr → List PyStr
  | [] => [[]]
  | c :: rest =>
    if h : find ≠ [] ∧ find.isPrefixOf (c :: rest) then
      [] :: pySplit find ((c :: rest).drop find.length)
    else
      match pySplit find rest with
      | [] => [[c]]
      | s :: ss => (c :: s) :: ss
termination_by s => s.length
decreasing_by
  · simp only [List.length_drop, List.length_cons]
    have hf : 0 < find.length := List.length_pos.mpr h.1
    omega
  · simp

/-- Python `s.replace(old, new)`: every non-overlapping occurrence of `old`,
scanned left to right, is replaced by `new`; an empty `old` inserts `new`
at every character boundary (CPython semantics). -/
def pyReplace (find repl : PyStr) : PyStr → PyStr
  | [] => if find = [] then repl else []
  | c :: rest =>
    if h : find ≠ [] ∧ find.isPrefixOf (c :: rest) then
      repl ++ pyReplace find repl ((c :: rest).drop find.length)
    else if find = [] then
      repl ++ c :: pyReplace find repl rest
    else
      c :: pyReplace find repl rest
termination_by s => s.length
decreasing_by
  · simp only [List.length_drop, List.length_cons]
    have hf : 0 < find.length := List.length_pos.mpr h.1
    omega
  · simp
  · simp

/-- Modelled from the spec: "Only the first occurrence inside that slice is
replaced".  Replaces just the leftmost occurrence of `find` and leaves the
remainder of the string untouched. -/
def replaceFirst (find repl : PyStr) : PyStr → PyStr
  | [] => if find = [] then repl else []
  | c :: rest =>
    if find ≠ [] ∧ find.isPrefixOf (c :: rest) then
      repl ++ (c :: rest).drop find.length
    else if find = [] then
      repl ++ c :: rest
    else
      c :: replaceFirst find repl rest

/-- `sep.join l` in Python. -/
def joinWith (sep : PyStr) : List PyStr → PyStr
  | [] => []
  | [x] => x
  | x :: y :: rest => x ++ sep ++ joinWith sep (y :: rest)

/-- `content.split("\n")`, the line view used by `_perform_edit_code`. -/
def splitNl (s : PyStr) : List PyStr := pySplit ['\n'] s

/-- `"\n".join(lines)`. -/
def joinNl (l : List PyStr) : PyStr := joinWith ['\n'] l

/-- Python `s.splitlines()` restricted to inputs whose only line-break
character is `"\n"` (the only separator produced by the edit engine):
like `split("\n")` but without a trailing empty chunk, and `[]` on `""`. -/
def pySplitlinesNl (s : PyStr) : List PyStr :=
  if s = [] then []
  else if (splitNl s).getLast? = some [] then (splitNl s).dropLast
  else splitNl s

/-- Arguments of `edit_code` that `_perform_edit_code` consumes.  Line
numbers are `Int` because the tool receives arbitrary integers. -/
structure EditArgs where
  find_start_line : Int
  find_end_line : Int
  find : PyStr
  replace : PyStr
deriving DecidableEq, Repr

/-- Result dictionary of `_perform_edit_code`: either one of the two error
payloads or the success payload `old_text` / `new_text` / `new_code`. -/
inductive EditResult where
  | rangeError (total_lines : Nat)
  | findError (existing_text : PyStr)
  | success (old_text new_text new_code : PyStr)
deriving DecidableEq, Repr

/-- `_perform_edit_code` from src/backend/src/agent/tools.py (lines 12-38;
the copy in src/backend/src/agent.py lines 150-176 is identical). -/
def performEditCode (fileContent : PyStr) (a : EditArgs) : EditResult :=
  let lines := splitNl fileContent
  let startIdx : Int := a.find_start_line - 1
  let endIdx : Int := a.find_end_line - 1
  if startIdx < 0 ∨ endIdx ≥ (lines.length : Int) ∨ startIdx > endIdx then
    .rangeError lines.length
  else
    let s := startIdx.toNat
    let e := endIdx.toNat
    let existing := joinNl ((lines.drop s).take (e + 1 - s))
    if a.find <:+: existing then
      let newText := pyReplace a.find a.replace existing
      .success existing newText
        (joinNl (lines.take s ++ splitNl newText ++ lines.drop (e + 1)))
    else
      .findError existing

/-! ### The in-memory project: a Python dict `path -> content` -/

/-- The virtual project, an insertion-ordered mapping with unique keys. -/
abbrev Project := List (PyStr × PyStr)

/-- `d[k]` / `k in d`: first (and, under the dict invariant, only) binding. -/
def dictLookup : Project → PyStr → Option PyStr
  | [], _ => none
  | (k, v) :: rest, q => if k = q then some v else dictLookup rest q

/-- `k in d`. -/
def dictMem (p : Project) (k : PyStr) : Bool := (dictLookup p k).isSome

/-- `d[k] = v`: overwrite in place when present, append otherwise. -/
def dictSet : Project → PyStr → PyStr → Project
  | [], k, v => [(k, v)]
  | (k', v') :: rest, k, v =>
    if k' = k then (k, v) :: rest else (k', v') :: dictSet rest k v

/-- `del d[k]`. -/
def dictDelete : Project → PyStr → Project
  | [], _ => []
  | (k', v') :: rest, k => if k' = k then rest else (k', v') :: dictDelete rest k

/-! ### Tool events (the run context's ordered event log) -/

inductive Phase where
  | started
  | completed
  | log
deriving DecidableEq, Repr

/-- `output_data` payloads of the `completed` events the claims inspect. -/
inductive ToolOutput where
  | editFileNotFound (file_path : PyStr)
  | editRangeError (total_lines : Nat)
  | editFindError (existing_text : PyStr)
  | editOk (file_path old_text new_text new_code : PyStr)
  | createFileExists (file_path : PyStr)
  | createOk (file_path content : PyStr)
  | deleteFileNotFound (file_path : PyStr)
  | deleteOk (file_path : PyStr)
  | renameFileNotFound (old_path new_path : PyStr)
  | renameOk (old_path new_path : PyStr) (overwritten : Bool)
  | renameFolderOk (old_path new_path : PyStr) (moved_files : Nat)
  | execResultOut (result : PyStr)
  | execDeferred (response_on_reject : PyStr)
  | sandboxRunOk
  | thinkOk (thoughts : PyStr)
deriving DecidableEq, Repr

/-- Whether the `output_data` dictionary carries an `error` field. -/
def ToolOutput.isError : ToolOutput → Bool
  | editFileNotFound _ => true
  | editRangeError _ => true
  | editFindError _ => true
  | createFileExists _ => true
  | deleteFileNotFound _ => true
  | renameFileNotFound _ _ => true
  | _ => false

/-- One entry of `ctx.context.events`.  `tid` is the `N` of the wire id
`"tc_<N>"` (see `toolTag`). -/
structure Event where
  phase : Phase
  tid : Nat
  name : String
  out : Option ToolOutput := none
  logData : PyStr := []
deriving DecidableEq, Repr

/-- The wire form of a tool id: `f"tc_{len(ctx.context.events)+1}"`. -/
def toolTag (n : Nat) : String := "tc_" ++ toString n

def mkStarted (n : Nat) (nm : String) : Event :=
  { phase := .started, tid := n, name := nm }

def mkCompleted (n : Nat) (nm : String) (o : ToolOutput) : Event :=
  { phase := .completed, tid := n, name := nm, out := some o }

def mkLog (n : Nat) (nm : String) (data : PyStr) : Event :=
  { phase := .log, tid := n, name := nm, logData := data }

/-- The per-run `IDEContext` fields the claims depend on. -/
structure Ctx where
  project : Project
  events : List Event := []
  execResult : Option PyStr := none
  deferRequested : Bool := false
deriving DecidableEq, Repr

/-! ### Project-mutation tools (src/backend/src/agent/tools.py) -/

/-- `edit_code` (tools.py lines 104-140). -/
def editCodeTool (c : Ctx) (file_path : PyStr) (a : EditArgs) : Ctx × ToolOutput :=
  let tid := c.events.length + 1
  let c1 : Ctx := { c with events := c.events ++ [mkStarted tid "edit_code"] }
  match dictLookup c1.project file_path with
  | none =>
    let out := ToolOutput.editFileNotFound file_path
    ({ c1 with events := c1.events ++ [mkCompleted tid "edit_code" out] }, out)
  | some content =>
    match performEditCode content a with
    | .rangeError n =>
      let out := ToolOutput.editRangeError n
      ({ c1 with events := c1.events ++ [mkCompleted tid "edit_code" out] }, out)
    | .findError ex =>
      let out := ToolOutput.editFindError ex
      ({ c1 with events := c1.events ++ [mkCompleted tid "edit_code" out] }, out)
    | .success old new code =>
      let out := ToolOutput.editOk file_path old new code
      ({ c1 with
          project := dictSet c1.project file_path code,
          events := c1.events ++ [mkCompleted tid "edit_code" out] }, out)

/-- `create_file` (tools.py lines 193-238). -/
def createFileTool (c : Ctx) (file_path content : PyStr) : Ctx × ToolOutput :=
  let tid := c.events.length + 1
  let c1 : Ctx := { c with events := c.events ++ [mkStarted tid "create_file"] }
  if dictMem c1.project file_path then
    let out := ToolOutput.createFileExists file_path
    ({ c1 with events := c1.events ++ [mkCompleted tid "create_file" out] }, out)
  else
    let out := ToolOutput.createOk file_path content
    ({ c1 with
        project := dictSet c1.project file_path content,
        events := c1.events ++ [mkCompleted tid "create_file" out] }, out)

/-- `delete_file` (tools.py lines 247-283). -/
def deleteFileTool (c : Ctx) (file_path : PyStr) : Ctx × ToolOutput :=
  let tid := c.events.length + 1
  let c1 : Ctx := { c with events := c.events ++ [mkStarted tid "delete_file"] }
  if dictMem c1.project file_path then
    let out := ToolOutput.deleteOk file_path
    ({ c1 with
        project := dictDelete c1.project file_path,
        events := c1.events ++ [mkCompleted tid "delete_file" out] }, out)
  else
    let out := ToolOutput.deleteFileNotFound file_path
    ({ c1 with events := c1.events ++ [mkCompleted tid "delete_file" out] }, out)

/-- `rename_file` (tools.py lines 287-343; the copy in src/backend/src/agent.py
lines 452-478 is identical): reads the content, assigns it to `new_path`
(silently overwriting), then deletes `old_path`. -/
def renameFileTool (c : Ctx) (old_path new_path : PyStr) : Ctx × ToolOutput :=
  let tid := c.events.length + 1
  let c1 : Ctx := { c with events := c.events ++ [mkStarted tid "rename_file"] }
  match dictLookup c1.project old_path with
  | none =>
    let out := ToolOutput.renameFileNotFound old_path new_path
    ({ c1 with events := c1.events ++ [mkCompleted tid "rename_file" out] }, out)
  | some content =>
    let overwritten := dictMem c1.project new_path
    let p1 := dictSet c1.project new_path content
    let p2 := dictDelete p1 old_path
    let out := ToolOutput.renameOk old_path new_path overwritten
    ({ c1 with
        project := p2,
        events := c1.events ++ [mkCompleted tid "rename_file" out] }, out)

/-- Python's `s.rstrip("/")`. -/
def rstripSlash (s : PyStr) : PyStr :=
  (s.reverse.dropWhile (fun ch => ch = '/')).reverse

/-- Python's `s.lstrip("/")`. -/
def lstripSlash (s : PyStr) : PyStr := s.dropWhile (fun ch => ch = '/')

/-- The project rewrite performed by `rename_folder` (tools.py lines
1828-1840): normalize both paths by stripping trailing slashes, then move
every key equal to the old prefix or under `old + "/"`, rebuilding the
dict in iteration order. -/
def renameFolderProject (project : Project) (old_path new_path : PyStr) : Project :=
  let oldNorm := rstripSlash old_path
  let newNorm := rstripSlash new_path
  project.foldl
    (fun acc kv =>
      if kv.1 = oldNorm ∨ (oldNorm ++ ['/']).isPrefixOf kv.1 then
        dictSet acc (lstripSlash (newNorm ++ kv.1.drop oldNorm.length)) kv.2
      else
        dictSet acc kv.1 kv.2)
    []

/-- The per-path destination computed by `rename_folder`: matching paths
have the old prefix replaced (and leading slashes stripped), others are
kept. -/
def renameDest (old_path new_path p : PyStr) : PyStr :=
  if p = rstripSlash old_path ∨ (rstripSlash old_path ++ ['/']).isPrefixOf p then
    lstripSlash (rstripSlash new_path ++ p.drop (rstripSlash old_path).length)
  else p

/-- Number of moved files reported by `rename_folder`. -/
def renameFolderMoved (project : Project) (old_path : PyStr) : Nat :=
  let oldNorm := rstripSlash old_path
  (project.filter
    (fun kv => kv.1 = oldNorm ∨ (oldNorm ++ ['/']).isPrefixOf kv.1)).length

/-- `rename_folder` (tools.py lines 1801-1857). -/
def renameFolderTool (c : Ctx) (old_path new_path : PyStr) : Ctx × ToolOutput :=
  let tid := c.events.length + 1
  let c1 : Ctx := { c with events := c.events ++ [mkStarted tid "rename_folder"] }
  let out := ToolOutput.renameFolderOk old_path new_path
    (renameFolderMoved c1.project old_path)
  ({ c1 with
      project := renameFolderProject c1.project old_path new_path,
      events := c1.events ++ [mkCompleted tid "rename_folder" out] }, out)

/-- `request_code_execution` (tools.py lines 143-189).  Returns the updated
context and the string handed back to the agent. -/
def requestCodeExecutionTool (c : Ctx) (response_on_reject : PyStr) : Ctx × PyStr :=
  let tid := c.events.length + 1
  let c1 : Ctx :=
    { c with events := c.events ++ [mkStarted tid "request_code_execution"] }
  match c1.execResult with
  | some r =>
    ({ c1 with
        events := c1.events ++
          [mkCompleted tid "request_code_execution" (.execResultOut r)] }, r)
  | none =>
    ({ c1 with
        deferRequested := true,
        events := c1.events ++
          [mkCompleted tid "request_code_execution"
            (.execDeferred response_on_reject)] },
      pstr "EXECUTION_REQUESTED")

/-- `think` (tools.py lines 41-70). -/
def thinkTool (c : Ctx) (thoughts : PyStr) : Ctx :=
  let tid := c.events.length + 1
  let c1 : Ctx := { c with events := c.events ++ [mkStarted tid "think"] }
  { c1 with events := c1.events ++ [mkCompleted tid "think" (.thinkOk thoughts)] }

/-- The event-log discipline of `sandbox_run` (tools.py lines 1050-1719):
one `started` event, then every log chunk the call produces (pre-run sync
notes, bootstrap output, the log pump) tagged with the same tool id, then
one `completed` event.  The remote effects are abstracted into the list of
log chunks observed. -/
def sandboxRunTool (c : Ctx) (logs : List PyStr) : Ctx :=
  let tid := c.events.length + 1
  let c1 : Ctx := { c with events := c.events ++ [mkStarted tid "sandbox_run"] }
  let c2 : Ctx := { c1 with events := c1.events ++ logs.map (mkLog tid "sandbox_run") }
  { c2 with events := c2.events ++ [mkCompleted tid "sandbox_run" .sandboxRunOk] }

/-- One agent-issued tool call, with the data that determines its effect on
the run context. -/
inductive ToolCall where
  | editCode (file_path : PyStr) (a : EditArgs)
  | createFile (file_path content : PyStr)
  | deleteFile (file_path : PyStr)
  | renameFile (old_path new_path : PyStr)
  | renameFolder (old_path new_path : PyStr)
  | requestCodeExecution (response_on_reject : PyStr)
  | think (thoughts : PyStr)
  | sandboxRun (logs : List PyStr)
deriving DecidableEq, Repr

/-- Dispatch one tool call against the run context. -/
def execTool (c : Ctx) : ToolCall → Ctx
  | .editCode fp a => (editCodeTool c fp a).1
  | .createFile fp content => (createFileTool c fp content).1
  | .deleteFile fp => (deleteFileTool c fp).1
  | .renameFile o n => (renameFileTool c o n).1
  | .renameFolder o n => (renameFolderTool c o n).1
  | .requestCodeExecution r => (requestCodeExecutionTool c r).1
  | .think t => thinkTool c t
  | .sandboxRun logs => sandboxRunTool c logs

/-- A run: the tools called by the agent, in order, applied to the context. -/
def execTools (c : Ctx) (calls : List ToolCall) : Ctx := calls.foldl execTool c

/-- A fresh run context (`IDEContext(project=..., base_payload=...)`). -/
def initCtx (project : Project) : Ctx := { project := project }

/-! ### Orchestrator termination (src/backend/src/agent/agent.py lines 197-209) -/

/-- Progress events the orchestrator emits after the agent task finished
and the event log was drained. -/
inductive StreamEvent where
  | agentOutput (data : PyStr)
  | runLog (data : String)
  | runFailed (error : String)
deriving DecidableEq, Repr

/-- The tail of `run_agent_flow`: after draining, stop silently on a defer,
emit `agent_output` on a truthy final output, and a `run_log` plus
`run_failed` pair otherwise. -/
def finishEvents (c : Ctx) (finalOutput : Option PyStr) : List StreamEvent :=
  if c.deferRequested then []
  else
    match finalOutput with
    | some out =>
      if out = [] then
        [.runLog "No final_output produced", .runFailed "No output produced."]
      else
        [.agentOutput out]
    | none =>
      [.runLog "No final_output produced", .runFailed "No output produced."]

/-! ### Resume (src/backend/src/agent/agent.py lines 249-258) -/

/-- The execution-result trim in `resume_agent_flow`: keep only the trailing
100000 characters of an oversized result. -/
def trimExecResult (s : PyStr) : PyStr :=
  if s.length > 100000 then s.drop (s.length - 100000) else s

/-- The context rebuilt by `resume_agent_flow`: `exec_result` is the
(trimmed) client-provided result. -/
def mkResumeContext (project : Project) (result : PyStr) : Ctx :=
  { project := project, execResult := some (trimExecResult result) }

/-! ### Safe working directory of `sandbox_run` (tools.py lines 1054-1070) -/

/-- Resolution of the requested `cwd` against the sandbox's own `cwd`:
absolute paths are accepted only when equal to or under the sandbox cwd,
relative paths are joined under it, anything else falls back to the
sandbox default. -/
def resolveCwd (baseCwd : PyStr) (requested : Option PyStr) : PyStr :=
  match requested with
  | none => baseCwd
  | some req =>
    if req = [] then baseCwd
    else if (['/'] : PyStr).isPrefixOf req then
      if (baseCwd ++ ['/']).isPrefixOf req ∨ req = baseCwd then req else baseCwd
    else
      rstripSlash (baseCwd ++ ['/'] ++ req)

/-! ### Project sync (tools.py lines 544-561 and api/sandbox.py lines 157-184) -/

/-- `to_write`: serialize the project, stripping leading `.`/`/` characters
(Python `lstrip("./")`) and skipping paths that become empty. -/
def serializeProject (project : Project) : List (PyStr × PyStr) :=
  project.filterMap
    (fun kv =>
      let p := kv.1.dropWhile (fun ch => ch = '.' ∨ ch = '/')
      if p = [] then none else some (p, kv.2))

/-- `range(0, len(xs), 64)` slicing: chunks of at most 64 files. -/
def chunks64 : List α → List (List α)
  | [] => []
  | x :: xs => ((x :: xs).take 64) :: chunks64 ((x :: xs).drop 64)
termination_by l => l.length
decreasing_by
  simp only [List.length_drop, List.length_cons]
  omega

/-- Failure schedules: `sched i` is the number of consecutive times
`sandbox.write_files` raises for chunk `i` before it would succeed. -/
abbrev FailureSchedule := Nat → Nat

/-- The chunk loop of `_sync_project_files` (tools.py lines 558-560): each
chunk is written once; the first raising chunk aborts the sync (the
exception propagates).  Returns the failing chunk's index or the number of
chunks written. -/
def agentSyncGo (sched : FailureSchedule) : Nat → List (List α) → Except Nat Nat
  | _, [] => .ok 0
  | i, _chunk :: rest =>
    if sched i = 0 then
      match agentSyncGo sched (i + 1) rest with
      | .ok n => .ok (n + 1)
      | .error j => .error j
    else .error i

/-- `_sync_project_files` under a failure schedule. -/
def agentSyncProject (sched : FailureSchedule) (project : Project) : Except Nat Nat :=
  agentSyncGo sched 0 (chunks64 (serializeProject project))

/-- The retry loop of the play flow's sync (api/sandbox.py lines 168-184):
`attempt` starts at 0; each failure increments it, gives up once
`attempt > 3`, and otherwise sleeps `0.25 * 2 ** (attempt - 1)` seconds
(modelled in milliseconds) before retrying.  Returns the sleeps performed
when the chunk is eventually written, `none` when it is abandoned. -/
def playAttemptLoop : Nat → Nat → List Nat → Option (List Nat)
  | 0, _, sleeps => some sleeps.reverse
  | f + 1, attempt, sleeps =>
    if attempt + 1 > 3 then none
    else playAttemptLoop f (attempt + 1) (250 * 2 ^ (attempt + 1 - 1) :: sleeps)

/-- The play flow's chunked sync under a failure schedule: per-chunk sleep
lists on success, `none` when some chunk exhausts its retries. -/
def playSyncGo (sched : FailureSchedule) : Nat → List (List α) → Option (List (List Nat))
  | _, [] => some []
  | i, _chunk :: rest =>
    match playAttemptLoop (sched i) 0 [] with
    | none => none
    | some sl => (playSyncGo sched (i + 1) rest).map (fun others => sl :: others)

/-- A large execution result used to exercise the resume-trim boundary. -/
def bigExecResult : PyStr := 'b' :: List.replicate 100000 'a'

/-- Well-formed tool-event logs: a sequence of complete tool blocks.  Each
block is one `started` event whose id is the 1-based index of the log at
allocation time (`n` events precede it), zero or more `log` events with the
same id, and one `completed` event with the same id. -/
inductive Blocks : Nat → List Event → Prop where
  | nil (n : Nat) : Blocks n []
  | block (n : Nat) (st ct : Event) (logs rest : List Event)
      (hst : st.phase = .started) (hsid : st.tid = n + 1)
      (hct : ct.phase = .completed) (hcid : ct.tid = n + 1)
      (hlogs : ∀ e ∈ logs, e.phase = .log ∧ e.tid = n + 1)
      (hrest : Blocks (n + (2 + logs.length)) rest) :
      Blocks n (st :: (logs ++ ct :: rest))

/-- The spec's description of the play-flow backoff: for chunk `i` the
sleeps are `250 * 2 ^ (attempt - 1)` ms for attempts `1 .. sched i`. -/
def expectedSleeps (sched : FailureSchedule) : Nat → Nat → List (List Nat)
  | _, 0 => []
  | start, n + 1 =>
    ((List.range (sched start)).map (fun a => 250 * 2 ^ a)) ::
      expectedSleeps sched (start + 1) n

/-! ## Theorems -/

/-! ### Dictionary lemmas -/

theorem dictLookup_dictSet_self (d : Project) (k v : PyStr) :
    dictLookup (dictSet d k v) k = some v := by
  induction d with
  | nil => simp [dictSet, dictLookup]
  | cons kv rest ih =>
    obtain ⟨k', v'⟩ := kv
    by_cases h : k' = k <;> simp [dictSet, dictLookup, h, ih]

theorem dictLookup_dictSet_ne (d : Project) (k v q : PyStr) (h : q ≠ k) :
    dictLookup (dictSet d k v) q = dictLookup d q := by
  induction d with
  | nil => simp [dictSet, dictLookup, Ne.symm h]
  | cons kv rest ih =>
    obtain ⟨k', v'⟩ := kv
    by_cases hk : k' = k
    · subst hk
      simp [dictSet, dictLookup, Ne.symm h]
    · by_cases hq : k' = q <;> simp [dictSet, dictLookup, hk, hq, ih, h]

theorem dictLookup_dictDelete_ne (d : Project) (k q : PyStr) (h : q ≠ k) :
    dictLookup (dictDelete d k) q = dictLookup d q := by
  induction d with
  | nil => simp [dictDelete]
  | cons kv rest ih =>
    obtain ⟨k', v'⟩ := kv
    by_cases hk : k' = k
    · subst hk
      simp [dictDelete, dictLookup, Ne.symm h]
    · by_cases hq : k' = q <;> simp [dictDelete, dictLookup, hk, hq, ih, h]

theorem dictLookup_eq_none_of_not_mem (d : Project) (k : PyStr)
    (h : k ∉ d.map Prod.fst) : dictLookup d k = none := by
  induction d with
  | nil => simp [dictLookup]
  | cons kv rest ih =>
    obtain ⟨k', v'⟩ := kv
    simp only [List.map_cons, List.mem_cons, not_or] at h
    simp [dictLookup, Ne.symm h.1, ih h.2]

theorem mem_map_fst_dictSet (d : Project) (k v q : PyStr) :
    q ∈ (dictSet d k v).map Prod.fst ↔ q ∈ d.map Prod.fst ∨ q = k := by
  induction d with
  | nil => simp [dictSet]
  | cons kv rest ih =>
    obtain ⟨k', v'⟩ := kv
    by_cases hk : k' = k
    · subst hk
      simp [dictSet]
      tauto
    · simp [dictSet, hk, ih]
      tauto

theorem nodup_map_fst_dictSet (d : Project) (k v : PyStr)
    (h : (d.map Prod.fst).Nodup) : ((dictSet d k v).map Prod.fst).Nodup := by
  induction d with
  | nil => simp [dictSet]
  | cons kv rest ih =>
    obtain ⟨k', v'⟩ := kv
    simp only [List.map_cons, List.nodup_cons] at h
    by_cases hk : k' = k
    · subst hk
      have hset : dictSet ((k', v') :: rest) k' v = (k', v) :: rest := by
        simp [dictSet]
      rw [hset, List.map_cons]
      exact List.nodup_cons.mpr ⟨h.1, h.2⟩
    · simp only [dictSet, if_neg hk, List.map_cons, List.nodup_cons]
      refine ⟨?_, ih h.2⟩
      rw [mem_map_fst_dictSet]
      rintro (hmem | heq)
      · exact h.1 hmem
      · exact hk heq

theorem dictLookup_dictDelete_self (d : Project) (k : PyStr)
    (h : (d.map Prod.fst).Nodup) : dictLookup (dictDelete d k) k = none := by
  induction d with
  | nil => simp [dictDelete, dictLookup]
  | cons kv rest ih =>
    obtain ⟨k', v'⟩ := kv
    simp only [List.map_cons, List.nodup_cons] at h
    by_cases hk : k' = k
    · subst hk
      simp only [dictDelete, if_pos rfl]
      exact dictLookup_eq_none_of_not_mem _ _ h.1
    · simp [dictDelete, dictLookup, hk, ih h.2]

/-! ### C9: `rename_file` with identical source and destination -/

/-- C9: for a project containing path `p`, `rename_file(p, p)` removes `p`
from the project entirely (its content is lost), reports
`renamed: true, overwritten: true` rather than an error, and leaves every
other path untouched. -/
theorem rename_file_same_path_loses_content (c : Ctx) (p : PyStr)
    (hmem : dictMem c.project p = true)
    (hnd : (c.project.map Prod.fst).Nodup) :
    dictLookup (renameFileTool c p p).1.project p = none ∧
    (renameFileTool c p p).2 = ToolOutput.renameOk p p true ∧
    (∀ q, q ≠ p → dictLookup (renameFileTool c p p).1.project q =
      dictLookup c.project q) := by
  unfold dictMem at hmem
  cases hl : dictLookup c.project p with
  | none => rw [hl] at hmem; simp at hmem
  | some content =>
    refine ⟨?_, ?_, ?_⟩
    · simp only [renameFileTool, hl]
      exact dictLookup_dictDelete_self _ _ (nodup_map_fst_dictSet _ _ _ hnd)
    · simp only [renameFileTool, hl, dictMem, Option.isSome_some]
    · intro q hq
      simp only [renameFileTool, hl]
      rw [dictLookup_dictDelete_ne _ _ _ hq, dictLookup_dictSet_ne _ _ _ _ hq]

theorem rename_file_same_path_loses_content_witness :
    dictMem (initCtx [(pstr "a", pstr "x")]).project (pstr "a") = true ∧
    (((initCtx [(pstr "a", pstr "x")]).project.map Prod.fst).Nodup) ∧
    dictLookup (renameFileTool (initCtx [(pstr "a", pstr "x")]) (pstr "a")
      (pstr "a")).1.project (pstr "a") = none :=
  ⟨by decide, by decide,
    (rename_file_same_path_loses_content (initCtx [(pstr "a", pstr "x")])
      (pstr "a") (by decide) (by decide)).1⟩

/-! ### C10: mutation errors leave the project untouched -/

/-- C10: whenever `edit_code`, `create_file` or `delete_file` completes with
an error output (file not found, file exists, invalid range, find not in
range), the project map after the call equals the project map before it. -/
theorem mutation_error_atomic (c : Ctx) :
    (∀ fp a, (editCodeTool c fp a).2.isError = true →
      (editCodeTool c fp a).1.project = c.project) ∧
    (∀ fp content, (createFileTool c fp content).2.isError = true →
      (createFileTool c fp content).1.project = c.project) ∧
    (∀ fp, (deleteFileTool c fp).2.isError = true →
      (deleteFileTool c fp).1.project = c.project) := by
  refine ⟨?_, ?_, ?_⟩
  · intro fp a herr
    cases hl : dictLookup c.project fp with
    | none => simp [editCodeTool, hl]
    | some content =>
      cases hp : performEditCode content a with
      | rangeError n => simp [editCodeTool, hl, hp]
      | findError ex => simp [editCodeTool, hl, hp]
      | success old new code =>
        simp [editCodeTool, hl, hp, ToolOutput.isError] at herr
  · intro fp content herr
    cases hmem : dictMem c.project fp with
    | true => simp [createFileTool, hmem]
    | false => simp [createFileTool, hmem, ToolOutput.isError] at herr
  · intro fp herr
    cases hmem : dictMem c.project fp with
    | true => simp [deleteFileTool, hmem, ToolOutput.isError] at herr
    | false => simp [deleteFileTool, hmem]

theorem mutation_error_atomic_witness :
    ((editCodeTool (initCtx []) (pstr "a") ⟨1, 1, [], []⟩).2.isError = true ∧
      (editCodeTool (initCtx []) (pstr "a") ⟨1, 1, [], []⟩).1.project = []) ∧
    ((createFileTool (initCtx [(pstr "a", pstr "x")]) (pstr "a")
        (pstr "y")).2.isError = true ∧
      (createFileTool (initCtx [(pstr "a", pstr "x")]) (pstr "a")
        (pstr "y")).1.project = [(pstr "a", pstr "x")]) ∧
    ((deleteFileTool (initCtx []) (pstr "b")).2.isError = true ∧
      (deleteFileTool (initCtx []) (pstr "b")).1.project = []) :=
  ⟨⟨by decide, (mutation_error_atomic (initCtx [])).1 (pstr "a") ⟨1, 1, [], []⟩
      (by decide)⟩,
   ⟨by decide, (mutation_error_atomic (initCtx [(pstr "a", pstr "x")])).2.1
      (pstr "a") (pstr "y") (by decide)⟩,
   ⟨by decide, (mutation_error_atomic (initCtx [])).2.2 (pstr "b") (by decide)⟩⟩

/-! ### C2: `request_code_execution` defers when no result is cached -/

/-- C2: when `exec_result` is unset, `request_code_execution` sets
`defer_requested` and returns exactly `"EXECUTION_REQUESTED"`, and the
orchestrator's termination step then emits nothing at all (in particular no
`agent_output`); when `exec_result` is set, the tool returns it. -/
theorem request_code_execution_defer (c : Ctx) (r : PyStr) :
    (c.execResult = none →
      (requestCodeExecutionTool c r).1.deferRequested = true ∧
      (requestCodeExecutionTool c r).2 = pstr "EXECUTION_REQUESTED" ∧
      ∀ finalOutput,
        finishEvents (requestCodeExecutionTool c r).1 finalOutput = []) ∧
    (∀ v, c.execResult = some v → (requestCodeExecutionTool c r).2 = v) := by
  constructor
  · intro h
    refine ⟨?_, ?_, ?_⟩ <;> simp [requestCodeExecutionTool, h, finishEvents]
  · intro v h
    simp [requestCodeExecutionTool, h]

theorem request_code_execution_defer_witness :
    ((initCtx []).execResult = none ∧
      (requestCodeExecutionTool (initCtx []) (pstr "no")).1.deferRequested = true ∧
      finishEvents (requestCodeExecutionTool (initCtx []) (pstr "no")).1
        (some (pstr "done")) = []) ∧
    (requestCodeExecutionTool
        { project := [], execResult := some (pstr "out") } (pstr "no")).2 =
      pstr "out" :=
  ⟨⟨rfl, ((request_code_execution_defer (initCtx []) (pstr "no")).1 rfl).1,
      ((request_code_execution_defer (initCtx []) (pstr "no")).1 rfl).2.2
        (some (pstr "done"))⟩,
    (request_code_execution_defer
      { project := [], execResult := some (pstr "out") } (pstr "no")).2
      (pstr "out") rfl⟩

/-! ### C8: the resume trim keeps the trailing 100000 characters, not 100 KiB -/

/-- C8 counterexample: a resume result of 100001 characters is at most
100 KiB (102400 bytes), yet the rebuilt context's `exec_result` is not the
unchanged result string: the code truncates at 100000 characters. -/
theorem resume_trim_kib_counterexample :
    bigExecResult.length ≤ 102400 ∧
    (mkResumeContext [] bigExecResult).execResult ≠ some bigExecResult := by
  have hlen : bigExecResult.length = 100001 := by
    rw [bigExecResult, List.length_cons, List.length_replicate]
  constructor
  · omega
  · have htrim : trimExecResult bigExecResult = List.replicate 100000 'a' := by
      simp only [trimExecResult, hlen]
      rw [if_pos (by omega : (100001 : Nat) > 100000), bigExecResult]
      rfl
    simp only [mkResumeContext, htrim, ne_eq, Option.some.injEq]
    intro hcontra
    have hcl := congrArg List.length hcontra
    rw [hlen, List.length_replicate] at hcl
    omega

/-- C8 amended: `resume_agent_flow` sets the rebuilt context's `exec_result`
to the client-provided result truncated to its trailing 100000 characters
whenever the result is longer than 100000 characters; results of at most
100000 characters pass through unchanged.  (The threshold is a character
count of 100000, not 100 KiB.) -/
theorem resume_trim_trailing (p : Project) (s : PyStr) :
    (s.length ≤ 100000 → (mkResumeContext p s).execResult = some s) ∧
    (100000 < s.length →
      (mkResumeContext p s).execResult = some (s.drop (s.length - 100000)) ∧
      (trimExecResult s).length = 100000 ∧ trimExecResult s <:+ s) := by
  constructor
  · intro h
    have hnot : ¬ s.length > 100000 := by omega
    simp [mkResumeContext, trimExecResult, hnot]
  · intro h
    refine ⟨?_, ?_, ?_⟩
    · simp [mkResumeContext, trimExecResult, h]
    · simp only [trimExecResult, if_pos h, List.length_drop]
      omega
    · simp only [trimExecResult, if_pos h]
      exact List.drop_suffix _ _

theorem resume_trim_trailing_witness :
    ((pstr "ok").length ≤ 100000 ∧
      (mkResumeContext [] (pstr "ok")).execResult = some (pstr "ok")) ∧
    (100000 < ('c' :: List.replicate 100000 'd').length ∧
      (trimExecResult ('c' :: List.replicate 100000 'd')).length = 100000) :=
  ⟨⟨by decide, (resume_trim_trailing [] (pstr "ok")).1 (by decide)⟩,
   ⟨by rw [List.length_cons, List.length_replicate]; omega,
    ((resume_trim_trailing [] ('c' :: List.replicate 100000 'd')).2
      (by rw [List.length_cons, List.length_replicate]; omega)).2.1⟩⟩

/-! ### Lemmas about `rstrip("/")` -/

theorem rstripSlash_append (a b : PyStr) (h : ∃ x ∈ b, x ≠ '/') :
    rstripSlash (a ++ b) = a ++ rstripSlash b := by
  unfold rstripSlash
  rw [List.reverse_append, List.dropWhile_append]
  have hne : b.reverse.dropWhile (fun ch => ch = '/') ≠ [] := by
    rw [Ne, List.dropWhile_eq_nil_iff]
    push_neg
    obtain ⟨x, hxmem, hx⟩ := h
    exact ⟨x, List.mem_reverse.mpr hxmem, by simp [hx]⟩
  rw [if_neg (by simpa [List.isEmpty_iff] using hne)]
  rw [List.reverse_append, List.reverse_reverse]

theorem exists_ne_slash_of_head (c : Char) (rest : PyStr) (hc : c ≠ '/') :
    ∃ x ∈ c :: rest, x ≠ '/' :=
  ⟨c, List.mem_cons_self c rest, hc⟩

theorem head_ne_slash_of_isPrefixOf_false (req : PyStr) (hne : req ≠ [])
    (h : (['/'] : PyStr).isPrefixOf req = false) :
    ∃ c rest, req = c :: rest ∧ c ≠ '/' := by
  cases req with
  | nil => exact absurd rfl hne
  | cons c rest =>
    refine ⟨c, rest, rfl, ?_⟩
    intro hc
    subst hc
    simp [List.isPrefixOf] at h

theorem resolveCwd_relative (base req : PyStr) (hne : req ≠ [])
    (hslash : (['/'] : PyStr).isPrefixOf req = false) :
    resolveCwd base (some req) = base ++ '/' :: rstripSlash req := by
  obtain ⟨c, rest, rfl, hc⟩ := head_ne_slash_of_isPrefixOf_false req hne hslash
  have hx : ∃ x ∈ (c :: rest : PyStr), x ≠ '/' := exists_ne_slash_of_head c rest hc
  have h1 : resolveCwd base (some (c :: rest)) =
      rstripSlash (base ++ ['/'] ++ (c :: rest)) := by
    simp [resolveCwd, hne, hslash]
  rw [h1, List.append_assoc]
  rw [rstripSlash_append base (['/'] ++ (c :: rest)) ⟨c, by simp, hc⟩]
  rw [rstripSlash_append ['/'] (c :: rest) hx]
  rfl

/-! ### C6: `sandbox_run` working-directory confinement -/

/-- C6: the working directory `sandbox_run` actually uses equals the
sandbox's own cwd or a descendant of it; an absolute request outside the
sandbox cwd is ignored in favor of the default, and a relative request is
joined under the sandbox cwd (where it still lies under the sandbox cwd). -/
theorem sandbox_run_cwd_safe (base : PyStr) :
    (∀ req, resolveCwd base req = base ∨
      (base ++ ['/']) <+: resolveCwd base req) ∧
    (∀ req, (['/'] : PyStr).isPrefixOf req = true →
      (base ++ ['/']).isPrefixOf req = false → req ≠ base →
      resolveCwd base (some req) = base) ∧
    (∀ req, req ≠ [] → (['/'] : PyStr).isPrefixOf req = false →
      resolveCwd base (some req) = base ++ '/' :: rstripSlash req ∧
      (base ++ ['/']) <+: resolveCwd base (some req)) := by
  have hrel : ∀ req, req ≠ [] → (['/'] : PyStr).isPrefixOf req = false →
      resolveCwd base (some req) = base ++ '/' :: rstripSlash req ∧
      (base ++ ['/']) <+: resolveCwd base (some req) := by
    intro req hne hslash
    have heq := resolveCwd_relative base req hne hslash
    refine ⟨heq, ?_⟩
    rw [heq, show (base ++ '/' :: rstripSlash req : PyStr) =
      (base ++ ['/']) ++ rstripSlash req by simp]
    exact List.prefix_append _ _
  refine ⟨?_, ?_, hrel⟩
  · intro req
    match req with
    | none => exact Or.inl rfl
    | some r =>
      by_cases hne : r = []
      · subst hne
        exact Or.inl (by simp [resolveCwd])
      · by_cases habs : (['/'] : PyStr).isPrefixOf r = true
        · by_cases hcond : (base ++ ['/']).isPrefixOf r = true ∨ r = base
          · rcases hcond with hpre | hbase
            · right
              have hres : resolveCwd base (some r) = r := by
                simp [resolveCwd, hne, habs, hpre]
              rw [hres]
              exact List.isPrefixOf_iff_prefix.mp hpre
            · subst hbase
              left
              simp [resolveCwd, hne, habs]
          · left
            push_neg at hcond
            have h1 : (base ++ ['/']).isPrefixOf r = false :=
              Bool.eq_false_iff.mpr hcond.1
            simp [resolveCwd, hne, habs, h1, hcond.2]
        · right
          have hslash : (['/'] : PyStr).isPrefixOf r = false :=
            Bool.eq_false_iff.mpr habs
          exact (hrel r hne hslash).2
  · intro req habs hpre hreq
    simp [resolveCwd, habs, hpre, hreq]

theorem sandbox_run_cwd_safe_witness :
    ((['/'] : PyStr).isPrefixOf (pstr "/etc") = true ∧
      (pstr "/sb" ++ ['/']).isPrefixOf (pstr "/etc") = false ∧
      pstr "/etc" ≠ pstr "/sb" ∧
      resolveCwd (pstr "/sb") (some (pstr "/etc")) = pstr "/sb") ∧
    (pstr "web/" ≠ [] ∧ (['/'] : PyStr).isPrefixOf (pstr "web/") = false ∧
      resolveCwd (pstr "/sb") (some (pstr "web/")) =
        pstr "/sb" ++ '/' :: rstripSlash (pstr "web/")) :=
  ⟨⟨by decide, by decide, by decide,
      (sandbox_run_cwd_safe (pstr "/sb")).2.1 (pstr "/etc")
        (by decide) (by decide) (by decide)⟩,
   ⟨by decide, by decide,
      ((sandbox_run_cwd_safe (pstr "/sb")).2.2 (pstr "web/")
        (by decide) (by decide)).1⟩⟩

/-! ### Lemmas about the chunked sync -/

theorem chunks64_flatten (l : List (PyStr × PyStr)) : (chunks64 l).flatten = l := by
  induction l using chunks64.induct with
  | case1 => simp [chunks64]
  | case2 x xs ih =>
    rw [chunks64]
    simp only [List.flatten_cons, ih]
    exact List.take_append_drop 64 (x :: xs)

theorem chunks64_size (l : List (PyStr × PyStr)) :
    ∀ c ∈ chunks64 l, c.length ≤ 64 := by
  induction l using chunks64.induct with
  | case1 => simp [chunks64]
  | case2 x xs ih =>
    rw [chunks64]
    intro c hc
    rcases List.mem_cons.mp hc with hhd | htl
    · subst hhd
      simp [List.length_take]
    · exact ih c htl

theorem playAttemptLoop_of_le (f : Nat) (h : f ≤ 3) :
    playAttemptLoop f 0 [] = some ((List.range f).map (fun a => 250 * 2 ^ a)) := by
  interval_cases f <;> rfl

theorem playAttemptLoop_of_gt (f : Nat) (h : 3 < f) :
    playAttemptLoop f 0 [] = none := by
  obtain ⟨k, rfl⟩ : ∃ k, f = k + 4 := ⟨f - 4, by omega⟩
  simp [playAttemptLoop]

theorem playSyncGo_eq_expectedSleeps (sched : FailureSchedule)
    (chunks : List (List (PyStr × PyStr))) (start : Nat)
    (h : ∀ i, i < chunks.length → sched (start + i) ≤ 3) :
    playSyncGo sched start chunks =
      some (expectedSleeps sched start chunks.length) := by
  induction chunks generalizing start with
  | nil => simp [playSyncGo, expectedSleeps]
  | cons c rest ih =>
    have h0 : sched start ≤ 3 := by simpa using h 0 (by simp)
    have hrest : ∀ i, i < rest.length → sched (start + 1 + i) ≤ 3 := by
      intro i hi
      have := h (i + 1) (by simpa using Nat.succ_lt_succ hi)
      rwa [show start + (i + 1) = start + 1 + i by omega] at this
    simp [playSyncGo, playAttemptLoop_of_le (sched start) h0, ih (start + 1) hrest,
      expectedSleeps]

theorem playSyncGo_abandons (sched : FailureSchedule)
    (chunks : List (List (PyStr × PyStr))) (start i : Nat)
    (hi : i < chunks.length) (hbad : 3 < sched (start + i)) :
    playSyncGo sched start chunks = none := by
  induction chunks generalizing start i with
  | nil => simp at hi
  | cons c rest ih =>
    cases i with
    | zero =>
      rw [Nat.add_zero] at hbad
      simp only [playSyncGo, playAttemptLoop_of_gt (sched start) hbad]
    | succ k =>
      cases hloop : playAttemptLoop (sched start) 0 [] with
      | none => simp only [playSyncGo, hloop]
      | some sl =>
        have hk : k < rest.length := by simpa using Nat.lt_of_succ_lt_succ hi
        have hbad' : 3 < sched (start + 1 + k) := by
          rwa [show start + 1 + k = start + (k + 1) by omega]
        simp only [playSyncGo, hloop, ih (start + 1) k hk hbad']
        rfl

theorem agentSyncGo_all_ok (sched : FailureSchedule)
    (chunks : List (List (PyStr × PyStr))) (start : Nat)
    (h : ∀ i, i < chunks.length → sched (start + i) = 0) :
    agentSyncGo sched start chunks = .ok chunks.length := by
  induction chunks generalizing start with
  | nil => simp [agentSyncGo]
  | cons c rest ih =>
    have h0 : sched start = 0 := by simpa using h 0 (by simp)
    have hrest : ∀ i, i < rest.length → sched (start + 1 + i) = 0 := by
      intro i hi
      have := h (i + 1) (by simpa using Nat.succ_lt_succ hi)
      rwa [show start + (i + 1) = start + 1 + i by omega] at this
    simp [agentSyncGo, h0, ih (start + 1) hrest]

theorem agentSyncGo_aborts_on_first_failure (sched : FailureSchedule)
    (chunks : List (List (PyStr × PyStr))) (start i : Nat)
    (hi : i < chunks.length) (hbad : 0 < sched (start + i))
    (hok : ∀ j, j < i → sched (start + j) = 0) :
    agentSyncGo sched start chunks = .error (start + i) := by
  induction chunks generalizing start i with
  | nil => simp at hi
  | cons c rest ih =>
    cases i with
    | zero =>
      rw [Nat.add_zero] at hbad ⊢
      have hne : ¬ sched start = 0 := by omega
      simp only [agentSyncGo, if_neg hne]
    | succ k =>
      have h0 : sched start = 0 := by simpa using hok 0 (Nat.succ_pos k)
      have hk : k < rest.length := by simpa using Nat.lt_of_succ_lt_succ hi
      have hbad' : 0 < sched (start + 1 + k) := by
        rwa [show start + 1 + k = start + (k + 1) by omega]
      have hok' : ∀ j, j < k → sched (start + 1 + j) = 0 := by
        intro j hj
        have := hok (j + 1) (by omega)
        rwa [show start + (j + 1) = start + 1 + j by omega] at this
      have hres := ih (start + 1) k hk hbad' hok'
      rw [show start + (k + 1) = start + 1 + k by omega]
      simp [agentSyncGo, h0, hres]

/-! ### C7: chunked project sync and the retry policy -/

/-- C7 counterexample: under a failure schedule where the only chunk fails
exactly once (well within "up to 3 retries"), the agent-side project sync
`_sync_project_files` is abandoned with an error instead of retrying,
while the play flow's sync succeeds after a single 250 ms backoff. -/
theorem sync_no_retry_counterexample :
    (∀ i, i < (chunks64 (serializeProject [(pstr "main.py", pstr "x")])).length →
      (fun _ : Nat => 1) i ≤ 3) ∧
    agentSyncProject (fun _ => 1) [(pstr "main.py", pstr "x")] = .error 0 ∧
    playSyncGo (fun _ => 1) 0 (chunks64 (serializeProject
      [(pstr "main.py", pstr "x")])) = some [[250]] := by
  refine ⟨?_, ?_, ?_⟩
  · intro i _
    norm_num
  · simp [agentSyncProject, serializeProject, chunks64, agentSyncGo, pstr]
  · simp [serializeProject, chunks64, playSyncGo, playAttemptLoop, pstr]

/-- C7 amended: both syncs write the serialized files in chunks of at most
64; the **play flow's** sync retries each failing chunk up to 3 times with
backoff `250 * 2 ^ (attempt - 1)` ms before the sync is abandoned, whereas
the agent-side `_sync_project_files` performs no retries: the first chunk
whose write fails abandons the sync. -/
theorem project_sync_chunking_and_retries (sched : FailureSchedule)
    (files : List (PyStr × PyStr)) (chunks : List (List (PyStr × PyStr)))
    (start : Nat) :
    ((chunks64 files).flatten = files ∧ ∀ c ∈ chunks64 files, c.length ≤ 64) ∧
    ((∀ i, i < chunks.length → sched (start + i) ≤ 3) →
      playSyncGo sched start chunks =
        some (expectedSleeps sched start chunks.length)) ∧
    (∀ i, i < chunks.length → 3 < sched (start + i) →
      playSyncGo sched start chunks = none) ∧
    ((∀ i, i < chunks.length → sched (start + i) = 0) →
      agentSyncGo sched start chunks = .ok chunks.length) ∧
    (∀ i, i < chunks.length → 0 < sched (start + i) →
      (∀ j, j < i → sched (start + j) = 0) →
      agentSyncGo sched start chunks = .error (start + i)) :=
  ⟨⟨chunks64_flatten files, chunks64_size files⟩,
   playSyncGo_eq_expectedSleeps sched chunks start,
   fun i hi hbad => playSyncGo_abandons sched chunks start i hi hbad,
   agentSyncGo_all_ok sched chunks start,
   fun i hi hbad hok =>
     agentSyncGo_aborts_on_first_failure sched chunks start i hi hbad hok⟩

theorem project_sync_chunking_and_retries_witness :
    playSyncGo (fun _ => 2) 0 [[(pstr "a", pstr "x")]] =
      some (expectedSleeps (fun _ => 2) 0 1) ∧
    agentSyncGo (fun _ => 2) 0 [[(pstr "a", pstr "x")]] = .error 0 :=
  ⟨(project_sync_chunking_and_retries (fun _ => 2) [] [[(pstr "a", pstr "x")]]
      0).2.1 (fun i _ => by norm_num),
   (project_sync_chunking_and_retries (fun _ => 2) [] [[(pstr "a", pstr "x")]]
      0).2.2.2.2 0 (by norm_num) (by norm_num)
      (fun j hj => absurd hj (by omega))⟩

/-! ### Lemmas for `rename_folder` -/

theorem dictSet_append_of_not_mem (acc : Project) (k v : PyStr)
    (h : k ∉ acc.map Prod.fst) : dictSet acc k v = acc ++ [(k, v)] := by
  induction acc with
  | nil => simp [dictSet]
  | cons kv rest ih =>
    obtain ⟨k', v'⟩ := kv
    simp only [List.map_cons, List.mem_cons, not_or] at h
    simp [dictSet, Ne.symm h.1, ih h.2]

theorem foldl_dictSet_eq_append_map (f : PyStr → PyStr) (l acc : Project)
    (hnd : (acc.map Prod.fst ++ l.map (fun kv => f kv.1)).Nodup) :
    List.foldl (fun acc2 kv => dictSet acc2 (f kv.1) kv.2) acc l =
      acc ++ l.map (fun kv => (f kv.1, kv.2)) := by
  induction l generalizing acc with
  | nil => simp
  | cons kv rest ih =>
    obtain ⟨p, v⟩ := kv
    have hdisj := (List.nodup_append.mp hnd).2.2
    have hnotin : f p ∉ acc.map Prod.fst := by
      intro hmem
      exact hdisj hmem (by simp)
    rw [List.foldl_cons]
    have hset := dictSet_append_of_not_mem acc (f (p, v).1) v hnotin
    rw [hset]
    rw [ih (acc ++ [(f (p, v).1, v)]) (by simpa [List.append_assoc] using hnd)]
    simp

theorem renameFolderProject_eq_map (project : Project) (old_path new_path : PyStr)
    (hnd : (project.map (fun kv => renameDest old_path new_path kv.1)).Nodup) :
    renameFolderProject project old_path new_path =
      project.map (fun kv => (renameDest old_path new_path kv.1, kv.2)) := by
  have hfold : renameFolderProject project old_path new_path =
      List.foldl
        (fun acc kv => dictSet acc (renameDest old_path new_path kv.1) kv.2)
        [] project := by
    simp only [renameFolderProject, renameDest]
    congr 1
    funext acc kv
    by_cases hm : kv.1 = rstripSlash old_path ∨
        List.isPrefixOf (rstripSlash old_path ++ ['/']) kv.1 = true
    · rw [if_pos hm, if_pos hm]
    · rw [if_neg hm, if_neg hm]
  rw [hfold, foldl_dictSet_eq_append_map _ _ [] (by simpa using hnd)]
  simp

theorem dropWhile_head_not (p : Char → Bool) (l : List Char) (a : Char)
    (t : List Char) (h : l.dropWhile p = a :: t) : p a = false := by
  induction l with
  | nil => simp [List.dropWhile] at h
  | cons x xs ih =>
    rw [List.dropWhile_cons] at h
    by_cases hx : p x = true
    · rw [if_pos hx] at h
      exact ih h
    · rw [if_neg hx] at h
      cases h
      exact Bool.eq_false_iff.mpr hx

theorem rstripSlash_ne_append_slash (x y : PyStr) :
    rstripSlash x ≠ y ++ ['/'] := by
  intro h
  unfold rstripSlash at h
  have h2 : x.reverse.dropWhile (fun ch => ch = '/') = '/' :: y.reverse := by
    have := congrArg List.reverse h
    simpa using this
  have := dropWhile_head_not _ _ _ _ h2
  simp at this

theorem lstripSlash_cons_of_ne (c : Char) (l : PyStr) (hc : c ≠ '/') :
    lstripSlash (c :: l) = c :: l := by
  simp [lstripSlash, List.dropWhile_cons, hc]

/-- Core string fact behind the corrected rename_folder claim: when the
new prefix is not nested under (or equal to) the old prefix and vice
versa, a moved path `n ++ suffix` neither equals the old prefix nor lies
under `old ++ "/"`. -/
theorem not_prefix_old_slash (o n suffix : PyStr)
    (hsuf : suffix = [] ∨ ∃ t, suffix = '/' :: t)
    (hneq : n ≠ o)
    (hdown : ¬ (o ++ ['/']) <+: n)
    (hup : ¬ (n ++ ['/']) <+: o)
    (hnoslash : ∀ y, n ≠ y ++ ['/']) :
    ¬ (o ++ ['/']) <+: (n ++ suffix) ∧ n ++ suffix ≠ o := by
  constructor
  · intro hpre
    by_cases hlen : o.length + 1 ≤ n.length
    · have h1 : (o ++ ['/']) <+: n :=
        List.prefix_of_prefix_length_le hpre (List.prefix_append n suffix)
          (by simpa using hlen)
      exact hdown h1
    · push_neg at hlen
      have hle : n.length ≤ o.length := by omega
      have h2 : n <+: (o ++ ['/']) :=
        List.prefix_of_prefix_length_le (List.prefix_append n suffix) hpre
          (by simp; omega)
      have h3 : n <+: o :=
        List.prefix_of_prefix_length_le h2 (List.prefix_append o ['/'])
          (by simpa using hle)
      obtain ⟨u, rfl⟩ := h3
      rw [List.append_assoc, List.prefix_append_right_inj] at hpre
      cases u with
      | nil => exact hneq (by simp)
      | cons uc urest =>
        rcases hsuf with hnil | ⟨t, hsx⟩
        · subst hnil
          have := hpre.length_le
          simp at this
        · subst hsx
          obtain ⟨w, hw⟩ := hpre
          have huc : uc = '/' := by
            simpa using congrArg (fun l => l.head?) hw
          subst huc
          exact hup ⟨urest, by simp⟩
  · intro hEq
    rcases hsuf with hnil | ⟨t, hsx⟩
    · subst hnil
      rw [List.append_nil] at hEq
      exact hneq hEq
    · subst hsx
      exact hup ⟨t, by simp [← hEq]⟩

/-! ### C5: `rename_folder` prefix rewriting -/

/-- C5 counterexample: renaming folder `a` to `a/b` in a project holding
`a/x` yields the single path `a/b/x`, which still starts with
`old + "/"`, refuting "no path in the resulting project starts with
`old + \"/\"`". -/
theorem rename_folder_counterexample :
    renameFolderProject [(pstr "a/x", pstr "c")] (pstr "a") (pstr "a/b") =
      [(pstr "a/b/x", pstr "c")] ∧
    (pstr "a" ++ ['/']) <+: pstr "a/b/x" := by
  constructor
  · decide
  · decide

/-- C5 amended: after `rename_folder(old, new)` every path that matched
`old` (equal to the normalized old prefix or under `old + "/"`) has its
prefix replaced by `new` with the suffix preserved and its content kept,
and every non-matching path is untouched; and **provided** the normalized
new prefix is non-empty, does not start with `/`, is not nested under or
equal to the old prefix (and vice versa), and the rewritten keys are
collision-free, no path in the resulting project equals the old prefix or
starts with `old + "/"`. -/
theorem rename_folder_prefix_rewrite (project : Project)
    (old_path new_path : PyStr)
    (hnewne : rstripSlash new_path ≠ [])
    (hnewslash : (['/'] : PyStr).isPrefixOf (rstripSlash new_path) = false)
    (hneq : rstripSlash new_path ≠ rstripSlash old_path)
    (hdown : ¬ (rstripSlash old_path ++ ['/']) <+: rstripSlash new_path)
    (hup : ¬ (rstripSlash new_path ++ ['/']) <+: rstripSlash old_path)
    (hnd : (project.map (fun kv => renameDest old_path new_path kv.1)).Nodup) :
    (∀ kv ∈ renameFolderProject project old_path new_path,
      kv.1 ≠ rstripSlash old_path ∧
      ¬ (rstripSlash old_path ++ ['/']) <+: kv.1) ∧
    (∀ kv ∈ project,
      (kv.1 = rstripSlash old_path ∨
        (rstripSlash old_path ++ ['/']).isPrefixOf kv.1) →
      (rstripSlash new_path ++ kv.1.drop (rstripSlash old_path).length,
        kv.2) ∈ renameFolderProject project old_path new_path) ∧
    (∀ kv ∈ project,
      ¬ (kv.1 = rstripSlash old_path ∨
        (rstripSlash old_path ++ ['/']).isPrefixOf kv.1) →
      kv ∈ renameFolderProject project old_path new_path) := by
  obtain ⟨nc, nrest, hn, hnc⟩ :=
    head_ne_slash_of_isPrefixOf_false (rstripSlash new_path) hnewne hnewslash
  have hdest_moved : ∀ p,
      (p = rstripSlash old_path ∨
        (rstripSlash old_path ++ ['/']).isPrefixOf p) →
      renameDest old_path new_path p =
        rstripSlash new_path ++ p.drop (rstripSlash old_path).length := by
    intro p hm
    rw [renameDest, if_pos hm, hn, List.cons_append, lstripSlash_cons_of_ne _ _ hnc]
  have hdest_kept : ∀ p,
      ¬ (p = rstripSlash old_path ∨
        (rstripSlash old_path ++ ['/']).isPrefixOf p) →
      renameDest old_path new_path p = p := by
    intro p hm
    rw [renameDest, if_neg hm]
  have hsuffix_shape : ∀ p,
      (p = rstripSlash old_path ∨
        (rstripSlash old_path ++ ['/']).isPrefixOf p) →
      p.drop (rstripSlash old_path).length = [] ∨
        ∃ t, p.drop (rstripSlash old_path).length = '/' :: t := by
    intro p hm
    rcases hm with heq | hpre
    · left
      rw [heq, List.drop_length]
    · right
      obtain ⟨w, hw⟩ := List.isPrefixOf_iff_prefix.mp hpre
      refine ⟨w, ?_⟩
      rw [← hw, List.append_assoc, List.singleton_append, List.drop_left]
  rw [renameFolderProject_eq_map project old_path new_path hnd]
  refine ⟨?_, ?_, ?_⟩
  · intro kv hkv
    obtain ⟨⟨p, v⟩, hpv, rfl⟩ := List.mem_map.mp hkv
    by_cases hm : p = rstripSlash old_path ∨
        (rstripSlash old_path ++ ['/']).isPrefixOf p
    · have hres := not_prefix_old_slash (rstripSlash old_path)
        (rstripSlash new_path) (p.drop (rstripSlash old_path).length)
        (hsuffix_shape p hm) hneq hdown hup
        (fun y => rstripSlash_ne_append_slash new_path y)
      simp only [hdest_moved p hm]
      exact ⟨hres.2, hres.1⟩
    · simp only [hdest_kept p hm]
      push_neg at hm
      refine ⟨hm.1, ?_⟩
      intro hcontra
      exact hm.2 (List.isPrefixOf_iff_prefix.mpr hcontra)
  · intro kv hkv hm
    refine List.mem_map.mpr ⟨kv, hkv, ?_⟩
    simp only [hdest_moved kv.1 hm]
  · intro kv hkv hm
    refine List.mem_map.mpr ⟨kv, hkv, ?_⟩
    simp only [hdest_kept kv.1 hm]

theorem rename_folder_prefix_rewrite_witness :
    (rstripSlash (pstr "b") ≠ [] ∧
      (pstr "b/x", pstr "c") ∈
        renameFolderProject [(pstr "a/x", pstr "c"), (pstr "k", pstr "d")]
          (pstr "a") (pstr "b")) ∧
    (pstr "k", pstr "d") ∈
      renameFolderProject [(pstr "a/x", pstr "c"), (pstr "k", pstr "d")]
        (pstr "a") (pstr "b") :=
  ⟨⟨by decide,
    (rename_folder_prefix_rewrite
        [(pstr "a/x", pstr "c"), (pstr "k", pstr "d")] (pstr "a") (pstr "b")
        (by decide) (by decide) (by decide) (by decide) (by decide)
        (by decide)).2.1
      (pstr "a/x", pstr "c") (by decide) (by decide)⟩,
   (rename_folder_prefix_rewrite
        [(pstr "a/x", pstr "c"), (pstr "k", pstr "d")] (pstr "a") (pstr "b")
        (by decide) (by decide) (by decide) (by decide) (by decide)
        (by decide)).2.2
      (pstr "k", pstr "d") (by decide) (by decide)⟩

/-! ### Unfolding equations for `pySplit` and `pyReplace` -/

theorem pySplit_nil (f : PyStr) : pySplit f [] = [[]] := by
  simp [pySplit]

theorem pySplit_cons_pos (f : PyStr) (c : Char) (rest : PyStr) (hf : f ≠ [])
    (hp : f.isPrefixOf (c :: rest) = true) :
    pySplit f (c :: rest) = [] :: pySplit f ((c :: rest).drop f.length) := by
  rw [pySplit]
  rw [dif_pos ⟨hf, hp⟩]

theorem pySplit_cons_neg_nil (f : PyStr) (c : Char) (rest : PyStr)
    (h : ¬(f ≠ [] ∧ f.isPrefixOf (c :: rest) = true))
    (hrest : pySplit f rest = []) : pySplit f (c :: rest) = [[c]] := by
  rw [pySplit, dif_neg h, hrest]

theorem pySplit_cons_neg (f : PyStr) (c : Char) (rest s0 : PyStr)
    (ss : List PyStr) (h : ¬(f ≠ [] ∧ f.isPrefixOf (c :: rest) = true))
    (hrest : pySplit f rest = s0 :: ss) :
    pySplit f (c :: rest) = (c :: s0) :: ss := by
  rw [pySplit, dif_neg h, hrest]

theorem pySplit_ne_nil (f s : PyStr) : pySplit f s ≠ [] := by
  cases s with
  | nil => simp [pySplit_nil]
  | cons c rest =>
    by_cases h : f ≠ [] ∧ f.isPrefixOf (c :: rest) = true
    · rw [pySplit_cons_pos f c rest h.1 h.2]
      simp
    · cases hrest : pySplit f rest with
      | nil => rw [pySplit_cons_neg_nil f c rest h hrest]; simp
      | cons s0 ss => rw [pySplit_cons_neg f c rest s0 ss h hrest]; simp

theorem pyReplace_nil (f r : PyStr) (hf : f ≠ []) : pyReplace f r [] = [] := by
  rw [pyReplace, if_neg hf]

theorem pyReplace_cons_pos (f r : PyStr) (c : Char) (rest : PyStr)
    (hf : f ≠ []) (hp : f.isPrefixOf (c :: rest) = true) :
    pyReplace f r (c :: rest) = r ++ pyReplace f r ((c :: rest).drop f.length) := by
  rw [pyReplace]
  rw [dif_pos ⟨hf, hp⟩]

theorem pyReplace_cons_neg (f r : PyStr) (c : Char) (rest : PyStr)
    (hf : f ≠ []) (hp : ¬ f.isPrefixOf (c :: rest) = true) :
    pyReplace f r (c :: rest) = c :: pyReplace f r rest := by
  rw [pyReplace, dif_neg (fun hand => hp hand.2), if_neg hf]

theorem joinWith_cons_head (sep : PyStr) (c : Char) (x : PyStr)
    (l : List PyStr) :
    joinWith sep ((c :: x) :: l) = c :: joinWith sep (x :: l) := by
  cases l <;> simp [joinWith]

/-- Python guarantee `sep.join(s.split(sep)) == s`. -/
theorem joinWith_pySplit (f s : PyStr) (hf : f ≠ []) :
    joinWith f (pySplit f s) = s := by
  induction s using pySplit.induct f with
  | case1 => simp [pySplit_nil, joinWith]
  | case2 c rest h ih =>
    cases hsp : pySplit f ((c :: rest).drop f.length) with
    | nil => exact absurd hsp (pySplit_ne_nil f _)
    | cons l0 ls =>
      rw [pySplit_cons_pos f c rest h.1 h.2, hsp]
      rw [hsp] at ih
      have hjoin : joinWith f ([] :: l0 :: ls) = f ++ joinWith f (l0 :: ls) := by
        simp [joinWith]
      rw [hjoin, ih]
      exact List.prefix_iff_eq_append.mp (List.isPrefixOf_iff_prefix.mp h.2)
  | case3 c rest h hrest ih => exact absurd hrest (pySplit_ne_nil f rest)
  | case4 c rest h s0 ss hrest ih =>
    rw [pySplit_cons_neg f c rest s0 ss h hrest, joinWith_cons_head, ← hrest, ih]

/-- Python's `s.replace(old, new)` equals `new.join(s.split(old))`. -/
theorem pyReplace_eq_joinWith (f r s : PyStr) (hf : f ≠ []) :
    pyReplace f r s = joinWith r (pySplit f s) := by
  induction s using pySplit.induct f with
  | case1 => simp [pySplit_nil, pyReplace_nil f r hf, joinWith]
  | case2 c rest h ih =>
    cases hsp : pySplit f ((c :: rest).drop f.length) with
    | nil => exact absurd hsp (pySplit_ne_nil f _)
    | cons l0 ls =>
      rw [pySplit_cons_pos f c rest h.1 h.2, hsp]
      rw [hsp] at ih
      rw [pyReplace_cons_pos f r c rest h.1 h.2, ih]
      simp [joinWith]
  | case3 c rest h hrest ih => exact absurd hrest (pySplit_ne_nil f rest)
  | case4 c rest h s0 ss hrest ih =>
    have hp : ¬ f.isPrefixOf (c :: rest) = true := fun hpre => h ⟨hf, hpre⟩
    rw [pySplit_cons_neg f c rest s0 ss h hrest, joinWith_cons_head,
      pyReplace_cons_neg f r c rest hf hp, ih, hrest]

/-! ### Single-character separators (splitting into lines) -/

theorem isPrefixOf_single (ch c : Char) (rest : PyStr) :
    ([ch] : PyStr).isPrefixOf (c :: rest) = true ↔ ch = c := by
  simp [List.isPrefixOf]

theorem pySplit_single_of_not_mem (ch : Char) (s : PyStr) (h : ch ∉ s) :
    pySplit [ch] s = [s] := by
  induction s with
  | nil => exact pySplit_nil [ch]
  | cons c rest ih =>
    simp only [List.mem_cons, not_or] at h
    have hnp : ¬(([ch] : PyStr) ≠ [] ∧
        ([ch] : PyStr).isPrefixOf (c :: rest) = true) := by
      rintro ⟨-, hpre⟩
      exact h.1 ((isPrefixOf_single ch c rest).mp hpre)
    rw [pySplit_cons_neg [ch] c rest rest [] hnp (ih h.2)]

theorem pySplit_single_append (ch : Char) (x t : PyStr) (h : ch ∉ x) :
    pySplit [ch] (x ++ ch :: t) = x :: pySplit [ch] t := by
  induction x with
  | nil =>
    rw [List.nil_append]
    rw [pySplit_cons_pos [ch] ch t (by simp)
      ((isPrefixOf_single ch ch t).mpr rfl)]
    simp
  | cons c x' ih =>
    simp only [List.mem_cons, not_or] at h
    have hnp : ¬(([ch] : PyStr) ≠ [] ∧
        ([ch] : PyStr).isPrefixOf (c :: (x' ++ ch :: t)) = true) := by
      rintro ⟨-, hpre⟩
      exact h.1 ((isPrefixOf_single ch c _).mp hpre)
    cases hrest : pySplit [ch] t with
    | nil => exact absurd hrest (pySplit_ne_nil [ch] t)
    | cons l0 ls =>
      have hx' := ih h.2
      rw [hrest] at hx'
      rw [List.cons_append, pySplit_cons_neg [ch] c (x' ++ ch :: t) x' (l0 :: ls)
        hnp hx']

/-- Round trip: splitting a `sep`-joined list of separator-free chunks
recovers the chunks. -/
theorem pySplit_single_joinWith (ch : Char) (L : List PyStr) (hne : L ≠ [])
    (hfree : ∀ x ∈ L, ch ∉ x) :
    pySplit [ch] (joinWith [ch] L) = L := by
  induction L with
  | nil => exact absurd rfl hne
  | cons x rest ih =>
    cases rest with
    | nil =>
      simp only [joinWith]
      exact pySplit_single_of_not_mem ch x (hfree x (by simp))
    | cons y rest' =>
      have hjoin : joinWith [ch] (x :: y :: rest') =
          x ++ ch :: joinWith [ch] (y :: rest') := by
        simp [joinWith]
      rw [hjoin, pySplit_single_append ch x _ (hfree x (by simp))]
      rw [ih (by simp) (fun z hz => hfree z (List.mem_cons_of_mem x hz))]

theorem not_mem_of_mem_pySplit_single (ch : Char) (s : PyStr) :
    ∀ x ∈ pySplit [ch] s, ch ∉ x := by
  induction s using pySplit.induct ([ch] : PyStr) with
  | case1 =>
    intro x hx
    rw [pySplit_nil] at hx
    simp at hx
    simp [hx]
  | case2 c rest h ih =>
    intro x hx
    rw [pySplit_cons_pos [ch] c rest h.1 h.2] at hx
    rcases List.mem_cons.mp hx with hhd | htl
    · simp [hhd]
    · exact ih x htl
  | case3 c rest h hrest ih => exact absurd hrest (pySplit_ne_nil [ch] rest)
  | case4 c rest h s0 ss hrest ih =>
    intro x hx
    rw [pySplit_cons_neg [ch] c rest s0 ss h hrest] at hx
    have hcne : ch ≠ c := by
      intro hc
      exact h ⟨by simp, (isPrefixOf_single ch c rest).mpr hc⟩
    rcases List.mem_cons.mp hx with hhd | htl
    · subst hhd
      simp only [List.mem_cons, not_or]
      refine ⟨hcne, ?_⟩
      have hs0 : s0 ∈ pySplit [ch] rest := by rw [hrest]; simp
      exact ih s0 hs0
    · exact ih x (by rw [hrest]; exact List.mem_cons_of_mem s0 htl)

theorem length_pySplit_single (ch : Char) (s : PyStr) :
    (pySplit [ch] s).length = s.count ch + 1 := by
  induction s using pySplit.induct ([ch] : PyStr) with
  | case1 => rw [pySplit_nil]; simp
  | case2 c rest h ih =>
    have hc : ch = c := (isPrefixOf_single ch c rest).mp h.2
    subst hc
    rw [pySplit_cons_pos [ch] ch rest h.1 h.2]
    simp only [List.length_cons, List.length_nil, Nat.zero_add,
      List.drop_succ_cons, List.drop_zero] at ih ⊢
    rw [ih]
    simp [List.count_cons]
  | case3 c rest h hrest ih => exact absurd hrest (pySplit_ne_nil [ch] rest)
  | case4 c rest h s0 ss hrest ih =>
    have hcne : ch ≠ c := by
      intro hc
      exact h ⟨by simp, (isPrefixOf_single ch c rest).mpr hc⟩
    rw [pySplit_cons_neg [ch] c rest s0 ss h hrest]
    rw [hrest] at ih
    have hcount : List.count ch (c :: rest) = List.count ch rest := by
      simp [List.count_cons, Ne.symm hcne]
    simp only [List.length_cons, hcount] at ih ⊢
    exact ih

theorem count_joinWith (ch : Char) (sep : PyStr) (L : List PyStr)
    (hne : L ≠ []) :
    (joinWith sep L).count ch =
      (L.map (List.count ch)).sum + (L.length - 1) * sep.count ch := by
  induction L with
  | nil => exact absurd rfl hne
  | cons x rest ih =>
    cases rest with
    | nil => simp [joinWith]
    | cons y rest' =>
      have hjoin : joinWith sep (x :: y :: rest') =
          x ++ sep ++ joinWith sep (y :: rest') := by
        simp [joinWith]
      rw [hjoin, List.count_append, List.count_append, ih (by simp)]
      simp only [List.map_cons, List.sum_cons, List.length_cons]
      have h1 : rest'.length + 1 + 1 - 1 = rest'.length + 1 := by omega
      have h2 : rest'.length + 1 - 1 = rest'.length := by omega
      rw [h1, h2]
      ring

/-! ### Anatomy of a successful `_perform_edit_code` -/

theorem performEditCode_success_spec (content : PyStr) (a : EditArgs)
    (old new code : PyStr)
    (h : performEditCode content a = .success old new code) :
    (a.find_start_line - 1).toNat ≤ (a.find_end_line - 1).toNat ∧
    (a.find_end_line - 1).toNat < (splitNl content).length ∧
    old = joinNl (((splitNl content).drop (a.find_start_line - 1).toNat).take
      ((a.find_end_line - 1).toNat + 1 - (a.find_start_line - 1).toNat)) ∧
    a.find <:+: old ∧
    new = pyReplace a.find a.replace old ∧
    code = joinNl ((splitNl content).take (a.find_start_line - 1).toNat ++
      splitNl new ++ (splitNl content).drop ((a.find_end_line - 1).toNat + 1)) := by
  simp only [performEditCode] at h
  split at h
  · exact absurd h (by simp)
  · rename_i hrange
    split at h
    · rename_i hfind
      push_neg at hrange
      obtain ⟨h1, h2, h3⟩ := hrange
      injection h with ho hn hc
      subst ho
      refine ⟨by omega, by omega, rfl, hfind, hn.symm, ?_⟩
      rw [← hn]
      exact hc.symm
    · exact absurd h (by simp)

/-! ### C1: which occurrences inside the slice are replaced -/

/-- C1 counterexample: editing the one-line file `"aa"` with
`find="a", replace="b"` on lines 1-1 succeeds and produces `"bb"`: the
second occurrence of `find` in the slice is replaced too, while a
first-occurrence-only replacement would produce `"ba"`. -/
theorem edit_code_first_occurrence_counterexample :
    performEditCode (pstr "aa") ⟨1, 1, pstr "a", pstr "b"⟩ =
      .success (pstr "aa") (pstr "bb") (pstr "bb") ∧
    replaceFirst (pstr "a") (pstr "b") (pstr "aa") = pstr "ba" ∧
    pstr "bb" ≠ pstr "ba" := by
  refine ⟨?_, by decide, by decide⟩
  simp [performEditCode, splitNl, pySplit, pyReplace, joinNl, joinWith, pstr]
  decide

/-- C1 amended: a successful `edit_code` replaces **every** non-overlapping
occurrence (scanned left to right) of the literal `find` inside the joined
slice text: the slice decomposes as chunks separated by `find`
(`joinWith find (pySplit find old) = old`) and the new text is exactly
those chunks rejoined with `replace`. -/
theorem edit_code_replaces_all_occurrences (content : PyStr) (a : EditArgs)
    (old new code : PyStr)
    (h : performEditCode content a = .success old new code)
    (hf : a.find ≠ []) :
    new = joinWith a.replace (pySplit a.find old) ∧
    joinWith a.find (pySplit a.find old) = old := by
  obtain ⟨-, -, -, -, hnew, -⟩ := performEditCode_success_spec content a old new code h
  exact ⟨by rw [hnew, pyReplace_eq_joinWith a.find a.replace old hf],
    joinWith_pySplit a.find old hf⟩

theorem edit_code_replaces_all_occurrences_witness :
    performEditCode (pstr "ab") ⟨1, 1, pstr "a", pstr "z"⟩ =
      .success (pstr "ab") (pstr "zb") (pstr "zb") ∧
    pstr "a" ≠ [] ∧
    (pstr "zb" = joinWith (pstr "z") (pySplit (pstr "a") (pstr "ab")) ∧
      joinWith (pstr "a") (pySplit (pstr "a") (pstr "ab")) = pstr "ab") :=
  ⟨by simp [performEditCode, splitNl, pySplit, pyReplace, joinNl, joinWith, pstr];
      decide,
   by decide,
   edit_code_replaces_all_occurrences (pstr "ab") ⟨1, 1, pstr "a", pstr "z"⟩
     (pstr "ab") (pstr "zb") (pstr "zb")
     (by simp [performEditCode, splitNl, pySplit, pyReplace, joinNl, joinWith, pstr];
         decide)
     (by decide)⟩

/-! ### C4: line preservation and the line-count law -/

/-- C4 counterexample: editing the one-line file `"y"` with
`find="y", replace="x\n"` succeeds; the file grows from 1 line to 2, but
`splitlines(replace) - splitlines(find) = 1 - 1 = 0`: `splitlines` does not
count a trailing newline, while `split("\n")` (which the engine uses) does. -/
theorem edit_code_line_delta_counterexample :
    performEditCode (pstr "y") ⟨1, 1, pstr "y", pstr "x\n"⟩ =
      .success (pstr "y") (pstr "x\n") (pstr "x\n") ∧
    (splitNl (pstr "x\n")).length = 2 ∧
    (splitNl (pstr "y")).length = 1 ∧
    (pySplitlinesNl (pstr "x\n")).length = 1 ∧
    (pySplitlinesNl (pstr "y")).length = 1 ∧
    ((2 : Int) - 1 ≠ (1 : Int) - 1) := by
  refine ⟨?_, ?_, ?_, ?_, ?_, by decide⟩
  · simp [performEditCode, splitNl, pySplit, pyReplace, joinNl, joinWith, pstr]
  · simp [splitNl, pySplit, pstr]
  · simp [splitNl, pySplit, pstr]
  · simp [pySplitlinesNl, splitNl, pySplit, pstr]
  · simp [pySplitlinesNl, splitNl, pySplit, pstr]

/-- C4 amended: a successful `edit_code` keeps every line outside the range
exactly (the new line list is the old prefix, the lines of the new slice
text, then the old suffix), and the total line count changes by
`(occurrences of find in the slice) * (count_newlines(replace) -
count_newlines(find))` — measured with `split("\n")` counts, not
`splitlines`. -/
theorem edit_code_line_structure (content : PyStr) (a : EditArgs)
    (old new code : PyStr)
    (h : performEditCode content a = .success old new code)
    (hf : a.find ≠ []) :
    splitNl code = (splitNl content).take (a.find_start_line - 1).toNat ++
      splitNl new ++ (splitNl content).drop ((a.find_end_line - 1).toNat + 1) ∧
    ((splitNl code).length : Int) - ((splitNl content).length : Int) =
      (((pySplit a.find old).length : Int) - 1) *
        ((a.replace.count '\n' : Int) - ((a.find.count '\n' : Int))) := by
  obtain ⟨hse, hlen, hold, hin, hnew, hcode⟩ :=
    performEditCode_success_spec content a old new code h
  have hfreeL : ∀ x ∈ splitNl content, '\n' ∉ x :=
    not_mem_of_mem_pySplit_single '\n' content
  have hfreeNew : ∀ x ∈ splitNl new, '\n' ∉ x :=
    not_mem_of_mem_pySplit_single '\n' new
  have hfreeAll : ∀ x ∈ (splitNl content).take (a.find_start_line - 1).toNat ++
      splitNl new ++ (splitNl content).drop ((a.find_end_line - 1).toNat + 1),
      '\n' ∉ x := by
    intro x hx
    rcases List.mem_append.mp hx with hx1 | hx3
    · rcases List.mem_append.mp hx1 with hx1a | hx2
      · exact hfreeL x (List.take_subset _ _ hx1a)
      · exact hfreeNew x hx2
    · exact hfreeL x (List.drop_subset _ _ hx3)
  have hnenil : (splitNl content).take (a.find_start_line - 1).toNat ++
      splitNl new ++ (splitNl content).drop ((a.find_end_line - 1).toNat + 1) ≠
      [] := by
    intro hnil
    rcases List.append_eq_nil.mp hnil with ⟨h12, -⟩
    rcases List.append_eq_nil.mp h12 with ⟨-, h2⟩
    exact pySplit_ne_nil ['\n'] new h2
  have hpart1 : splitNl code =
      (splitNl content).take (a.find_start_line - 1).toNat ++
        splitNl new ++ (splitNl content).drop ((a.find_end_line - 1).toNat + 1) := by
    rw [hcode]
    exact pySplit_single_joinWith '\n' _ hnenil hfreeAll
  refine ⟨hpart1, ?_⟩
  have hslice_len :
      (((splitNl content).drop (a.find_start_line - 1).toNat).take
        ((a.find_end_line - 1).toNat + 1 - (a.find_start_line - 1).toNat)).length =
      (a.find_end_line - 1).toNat + 1 - (a.find_start_line - 1).toNat := by
    rw [List.length_take, List.length_drop]
    omega
  have hslice_ne :
      ((splitNl content).drop (a.find_start_line - 1).toNat).take
        ((a.find_end_line - 1).toNat + 1 - (a.find_start_line - 1).toNat) ≠ [] := by
    intro hnil
    rw [hnil] at hslice_len
    simp at hslice_len
    omega
  have hslice_free : ∀ x ∈ ((splitNl content).drop (a.find_start_line - 1).toNat).take
      ((a.find_end_line - 1).toNat + 1 - (a.find_start_line - 1).toNat), '\n' ∉ x :=
    fun x hx => hfreeL x (List.drop_subset _ _ (List.take_subset _ _ hx))
  have hcold : old.count '\n' =
      (a.find_end_line - 1).toNat - (a.find_start_line - 1).toNat := by
    rw [hold]
    simp only [joinNl]
    rw [count_joinWith '\n' ['\n'] _ hslice_ne]
    have hsum : ((((splitNl content).drop (a.find_start_line - 1).toNat).take
        ((a.find_end_line - 1).toNat + 1 - (a.find_start_line - 1).toNat)).map
          (List.count '\n')).sum = 0 := by
      apply List.sum_eq_zero
      intro x hx
      rcases List.mem_map.mp hx with ⟨y, hy, rfl⟩
      exact List.count_eq_zero.mpr (hslice_free y hy)
    rw [hsum, hslice_len]
    simp
    omega
  have hchne : pySplit a.find old ≠ [] := pySplit_ne_nil a.find old
  have hchpos : 1 ≤ (pySplit a.find old).length :=
    Nat.one_le_iff_ne_zero.mpr (fun h0 => hchne (List.length_eq_zero.mp h0))
  have hnew_eq : new = joinWith a.replace (pySplit a.find old) := by
    rw [hnew, pyReplace_eq_joinWith a.find a.replace old hf]
  have hold_eq : joinWith a.find (pySplit a.find old) = old :=
    joinWith_pySplit a.find old hf
  have hcnew : new.count '\n' =
      ((pySplit a.find old).map (List.count '\n')).sum +
        ((pySplit a.find old).length - 1) * a.replace.count '\n' := by
    rw [hnew_eq]
    exact count_joinWith '\n' a.replace _ hchne
  have hcold2 : old.count '\n' =
      ((pySplit a.find old).map (List.count '\n')).sum +
        ((pySplit a.find old).length - 1) * a.find.count '\n' := by
    conv_lhs => rw [← hold_eq]
    exact count_joinWith '\n' a.find _ hchne
  have hlen_new : (splitNl new).length = new.count '\n' + 1 :=
    length_pySplit_single '\n' new
  have hlen_code : (splitNl code).length =
      (a.find_start_line - 1).toNat + (new.count '\n' + 1) +
        ((splitNl content).length - ((a.find_end_line - 1).toNat + 1)) := by
    rw [hpart1]
    simp only [List.length_append, List.length_take, List.length_drop, hlen_new]
    have : min (a.find_start_line - 1).toNat (splitNl content).length =
        (a.find_start_line - 1).toNat := by omega
    omega
  have hcast : (((pySplit a.find old).length - 1 : Nat) : Int) =
      ((pySplit a.find old).length : Int) - 1 := by omega
  have hdist : (((pySplit a.find old).length - 1 : Nat) : Int) *
      ((a.replace.count '\n' : Int) - ((a.find.count '\n' : Int))) =
      ((((pySplit a.find old).length - 1) * a.replace.count '\n' : Nat) : Int) -
        ((((pySplit a.find old).length - 1) * a.find.count '\n' : Nat) : Int) := by
    push_cast
    ring
  rw [← hcast, hdist]
  omega

theorem edit_code_line_structure_witness :
    (splitNl (pstr "a\nc\nd") =
      (splitNl (pstr "a\nb")).take ((2 - 1 : Int)).toNat ++
        splitNl (pstr "c\nd") ++
        (splitNl (pstr "a\nb")).drop (((2 : Int) - 1).toNat + 1)) ∧
    ((splitNl (pstr "a\nc\nd")).length : Int) -
        ((splitNl (pstr "a\nb")).length : Int) =
      (((pySplit (pstr "b") (pstr "b")).length : Int) - 1) *
        (((pstr "c\nd").count '\n' : Int) - (((pstr "b").count '\n' : Int))) :=
  edit_code_line_structure (pstr "a\nb") ⟨2, 2, pstr "b", pstr "c\nd"⟩
    (pstr "b") (pstr "c\nd") (pstr "a\nc\nd")
    (by simp [performEditCode, splitNl, pySplit, pyReplace, joinNl, joinWith, pstr])
    (by decide)

/-! ### The tool-event log discipline (C3) -/

theorem blocks_append (n : Nat) (xs ys : List Event) (h1 : Blocks n xs)
    (h2 : Blocks (n + xs.length) ys) : Blocks n (xs ++ ys) := by
  induction h1 with
  | nil m =>
    rw [List.nil_append]
    simpa using h2
  | block m st ct logs rest hst hsid hct hcid hlogs hrest ih =>
    have hlen : m + (2 + logs.length) + rest.length =
        m + (st :: (logs ++ ct :: rest)).length := by
      simp [List.length_append]
      omega
    rw [hlen] at ih
    have hb := Blocks.block m st ct logs (rest ++ ys) hst hsid hct hcid hlogs
      (ih h2)
    simpa [List.append_assoc] using hb

theorem blocks_tid_lower (n : Nat) (xs : List Event) (h : Blocks n xs) :
    ∀ e ∈ xs, n + 1 ≤ e.tid := by
  induction h with
  | nil m => simp
  | block m st ct logs rest hst hsid hct hcid hlogs hrest ih =>
    intro e he
    rcases List.mem_cons.mp he with rfl | he2
    · omega
    · rcases List.mem_append.mp he2 with hlog | he3
      · have := (hlogs e hlog).2
        omega
      · rcases List.mem_cons.mp he3 with rfl | he4
        · omega
        · have := ih e he4
          omega

theorem blocks_decomp (n : Nat) (xs : List Event) (h : Blocks n xs) :
    ∀ i, (∃ e ∈ xs, e.tid = i) →
      ∃ pre mid post st ct,
        xs = pre ++ st :: (mid ++ ct :: post) ∧
        st.phase = .started ∧ st.tid = i ∧
        ct.phase = .completed ∧ ct.tid = i ∧
        (∀ e ∈ mid, e.phase = .log ∧ e.tid = i) ∧
        (∀ e ∈ pre, e.tid ≠ i) ∧ (∀ e ∈ post, e.tid ≠ i) ∧
        i = n + pre.length + 1 := by
  induction h with
  | nil m =>
    rintro i ⟨e, he, -⟩
    simp at he
  | block m st ct logs rest hst hsid hct hcid hlogs hrest ih =>
    rintro i ⟨e, he, hei⟩
    by_cases hi : i = m + 1
    · subst hi
      refine ⟨[], logs, rest, st, ct, by simp, hst, hsid, hct, hcid, hlogs,
        by simp, ?_, by simp⟩
      intro e2 he2 hid2
      have := blocks_tid_lower _ _ hrest e2 he2
      omega
    · have he4 : e ∈ rest := by
        rcases List.mem_cons.mp he with rfl | he2
        · exact absurd (hsid.symm.trans hei) (fun hc => hi hc.symm)
        · rcases List.mem_append.mp he2 with hlog | he3
          · exact absurd ((hlogs e hlog).2.symm.trans hei)
              (fun hc => hi hc.symm)
          · rcases List.mem_cons.mp he3 with rfl | he4
            · exact absurd (hcid.symm.trans hei) (fun hc => hi hc.symm)
            · exact he4
      obtain ⟨pre2, mid2, post2, st2, ct2, heq, hst2, hsid2, hct2, hcid2,
        hmid2, hpre2, hpost2, hidx2⟩ := ih i ⟨e, he4, hei⟩
      refine ⟨st :: (logs ++ ct :: pre2), mid2, post2, st2, ct2, ?_,
        hst2, hsid2, hct2, hcid2, hmid2, ?_, hpost2, ?_⟩
      · rw [heq]
        simp [List.append_assoc]
      · intro e2 he2 hid2
        have hge : m + (2 + logs.length) + 1 ≤ i := by
          rw [hidx2]
          omega
        rcases List.mem_cons.mp he2 with rfl | he3
        · omega
        · rcases List.mem_append.mp he3 with hlog | he5
          · have := (hlogs e2 hlog).2
            omega
          · rcases List.mem_cons.mp he5 with rfl | he6
            · omega
            · exact hpre2 e2 he6 hid2
      · rw [hidx2]
        simp [List.length_append]
        omega

theorem execTool_appends_block (c : Ctx) (t : ToolCall) :
    ∃ st logs ct,
      (execTool c t).events = c.events ++ st :: (logs ++ ct :: []) ∧
      st.phase = .started ∧ st.tid = c.events.length + 1 ∧
      ct.phase = .completed ∧ ct.tid = c.events.length + 1 ∧
      (∀ e ∈ logs, e.phase = .log ∧ e.tid = c.events.length + 1) := by
  cases t with
  | editCode fp a =>
    cases hl : dictLookup c.project fp with
    | none =>
      refine ⟨mkStarted (c.events.length + 1) "edit_code", [],
        mkCompleted (c.events.length + 1) "edit_code"
          (ToolOutput.editFileNotFound fp), ?_, rfl, rfl, rfl, rfl, by simp⟩
      simp [execTool, editCodeTool, hl]
    | some content =>
      cases hp : performEditCode content a with
      | rangeError k =>
        refine ⟨mkStarted (c.events.length + 1) "edit_code", [],
          mkCompleted (c.events.length + 1) "edit_code"
            (ToolOutput.editRangeError k), ?_, rfl, rfl, rfl, rfl, by simp⟩
        simp [execTool, editCodeTool, hl, hp]
      | findError ex =>
        refine ⟨mkStarted (c.events.length + 1) "edit_code", [],
          mkCompleted (c.events.length + 1) "edit_code"
            (ToolOutput.editFindError ex), ?_, rfl, rfl, rfl, rfl, by simp⟩
        simp [execTool, editCodeTool, hl, hp]
      | success old new code =>
        refine ⟨mkStarted (c.events.length + 1) "edit_code", [],
          mkCompleted (c.events.length + 1) "edit_code"
            (ToolOutput.editOk fp old new code), ?_, rfl, rfl, rfl, rfl,
          by simp⟩
        simp [execTool, editCodeTool, hl, hp]
  | createFile fp content =>
    cases hm : dictMem c.project fp with
    | true =>
      refine ⟨mkStarted (c.events.length + 1) "create_file", [],
        mkCompleted (c.events.length + 1) "create_file"
          (ToolOutput.createFileExists fp), ?_, rfl, rfl, rfl, rfl, by simp⟩
      simp [execTool, createFileTool, hm]
    | false =>
      refine ⟨mkStarted (c.events.length + 1) "create_file", [],
        mkCompleted (c.events.length + 1) "create_file"
          (ToolOutput.createOk fp content), ?_, rfl, rfl, rfl, rfl, by simp⟩
      simp [execTool, createFileTool, hm]
  | deleteFile fp =>
    cases hm : dictMem c.project fp with
    | true =>
      refine ⟨mkStarted (c.events.length + 1) "delete_file", [],
        mkCompleted (c.events.length + 1) "delete_file"
          (ToolOutput.deleteOk fp), ?_, rfl, rfl, rfl, rfl, by simp⟩
      simp [execTool, deleteFileTool, hm]
    | false =>
      refine ⟨mkStarted (c.events.length + 1) "delete_file", [],
        mkCompleted (c.events.length + 1) "delete_file"
          (ToolOutput.deleteFileNotFound fp), ?_, rfl, rfl, rfl, rfl, by simp⟩
      simp [execTool, deleteFileTool, hm]
  | renameFile o np =>
    cases hl : dictLookup c.project o with
    | none =>
      refine ⟨mkStarted (c.events.length + 1) "rename_file", [],
        mkCompleted (c.events.length + 1) "rename_file"
          (ToolOutput.renameFileNotFound o np), ?_, rfl, rfl, rfl, rfl,
        by simp⟩
      simp [execTool, renameFileTool, hl]
    | some content =>
      refine ⟨mkStarted (c.events.length + 1) "rename_file", [],
        mkCompleted (c.events.length + 1) "rename_file"
          (ToolOutput.renameOk o np (dictMem c.project np)), ?_, rfl, rfl,
        rfl, rfl, by simp⟩
      simp [execTool, renameFileTool, hl]
  | renameFolder o np =>
    refine ⟨mkStarted (c.events.length + 1) "rename_folder", [],
      mkCompleted (c.events.length + 1) "rename_folder"
        (ToolOutput.renameFolderOk o np (renameFolderMoved c.project o)), ?_,
      rfl, rfl, rfl, rfl, by simp⟩
    simp [execTool, renameFolderTool]
  | requestCodeExecution r =>
    cases hr : c.execResult with
    | none =>
      refine ⟨mkStarted (c.events.length + 1) "request_code_execution", [],
        mkCompleted (c.events.length + 1) "request_code_execution"
          (ToolOutput.execDeferred r), ?_, rfl, rfl, rfl, rfl, by simp⟩
      simp [execTool, requestCodeExecutionTool, hr]
    | some v =>
      refine ⟨mkStarted (c.events.length + 1) "request_code_execution", [],
        mkCompleted (c.events.length + 1) "request_code_execution"
          (ToolOutput.execResultOut v), ?_, rfl, rfl, rfl, rfl, by simp⟩
      simp [execTool, requestCodeExecutionTool, hr]
  | think th =>
    refine ⟨mkStarted (c.events.length + 1) "think", [],
      mkCompleted (c.events.length + 1) "think" (ToolOutput.thinkOk th), ?_,
      rfl, rfl, rfl, rfl, by simp⟩
    simp [execTool, thinkTool]
  | sandboxRun logs =>
    refine ⟨mkStarted (c.events.length + 1) "sandbox_run",
      logs.map (mkLog (c.events.length + 1) "sandbox_run"),
      mkCompleted (c.events.length + 1) "sandbox_run" .sandboxRunOk, ?_,
      rfl, rfl, rfl, rfl, ?_⟩
    · simp [execTool, sandboxRunTool, List.append_assoc]
    · intro e he
      rcases List.mem_map.mp he with ⟨d, -, rfl⟩
      exact ⟨rfl, rfl⟩

theorem execTools_blocks (c : Ctx) (calls : List ToolCall)
    (h : Blocks 0 c.events) : Blocks 0 (execTools c calls).events := by
  induction calls generalizing c with
  | nil => exact h
  | cons t rest ih =>
    have hstep : execTools c (t :: rest) = execTools (execTool c t) rest := rfl
    rw [hstep]
    apply ih
    obtain ⟨st, logs, ct, heq, hst, hsid, hct, hcid, hlogs⟩ :=
      execTool_appends_block c t
    rw [heq]
    apply blocks_append 0 c.events _ h
    have hb := Blocks.block c.events.length st ct logs [] hst hsid hct hcid
      hlogs (Blocks.nil _)
    simpa using hb

/-- C3: in the event log produced by any sequence of tool calls, every tool
id that occurs identifies exactly one `started` and exactly one `completed`
event; all other events carrying that id are `log` events lying strictly
between them; and the id's numeral is the 1-based index of the event log at
allocation time (the position of the `started` event), rendered on the wire
as `"tc_<N>"`. -/
theorem tool_event_log_discipline (project : Project) (calls : List ToolCall)
    (i : Nat)
    (hused : ∃ e ∈ (execTools (initCtx project) calls).events, e.tid = i) :
    ∃ pre mid post st ct,
      (execTools (initCtx project) calls).events =
        pre ++ st :: (mid ++ ct :: post) ∧
      st.phase = .started ∧ st.tid = i ∧
      ct.phase = .completed ∧ ct.tid = i ∧
      (∀ e ∈ mid, e.phase = .log ∧ e.tid = i) ∧
      (∀ e ∈ pre, e.tid ≠ i) ∧ (∀ e ∈ post, e.tid ≠ i) ∧
      i = pre.length + 1 ∧ toolTag i = "tc_" ++ toString (pre.length + 1) := by
  have hblocks : Blocks 0 (execTools (initCtx project) calls).events :=
    execTools_blocks (initCtx project) calls (Blocks.nil 0)
  obtain ⟨pre, mid, post, st, ct, heq, hst, hsid, hct, hcid, hmid, hpre,
    hpost, hidx⟩ := blocks_decomp 0 _ hblocks i hused
  refine ⟨pre, mid, post, st, ct, heq, hst, hsid, hct, hcid, hmid, hpre,
    hpost, by omega, ?_⟩
  have : i = pre.length + 1 := by omega
  rw [this]
  rfl

theorem tool_event_log_discipline_witness :
    (∃ e ∈ (execTools (initCtx [(pstr "a", pstr "x")])
        [.think (pstr "p"), .sandboxRun [pstr "l"]]).events, e.tid = 3) ∧
    (∃ pre mid post st ct,
      (execTools (initCtx [(pstr "a", pstr "x")])
        [.think (pstr "p"), .sandboxRun [pstr "l"]]).events =
        pre ++ st :: (mid ++ ct :: post) ∧
      st.phase = .started ∧ st.tid = 3 ∧
      ct.phase = .completed ∧ ct.tid = 3 ∧
      (∀ e ∈ mid, e.phase = .log ∧ e.tid = 3) ∧
      (∀ e ∈ pre, e.tid ≠ 3) ∧ (∀ e ∈ post, e.tid ≠ 3) ∧
      (3 : Nat) = pre.length + 1 ∧
      toolTag 3 = "tc_" ++ toString (pre.length + 1)) :=
  ⟨by decide,
   tool_event_log_discipline [(pstr "a", pstr "x")]
     [.think (pstr "p"), .sandboxRun [pstr "l"]] 3 (by decide)⟩

end IDEAgent
